import Mathlib

/-!
Verification development for `merge_macros.py`, the timeline synthesis and
humanization engine of this repository.  Python dict events are embedded as a
structure; the shared mutable `random.Random` instance is embedded as an
explicit stream of naturals threaded through every call (each primitive draw
consumes one element).  Machine integers do not overflow in the source's
ranges, so times are plain `Int`.
-/

namespace MergeMacros

/-- Embedded event record.  Field `time` is the JSON key `Time` (already parsed
to an integer: `process_macro_file` coerces `Time` with fallback 0, which the
embedding takes as given), `typ` is `Type`, `x`/`y` are `X`/`Y` (absent or
JSON-null both embed as `none`), and `PROTECTED` is the marker field set by
`preserve_click_integrity` (absent embeds as `false`). -/
structure Event where
  time : Int
  typ : String
  x : Option Int := none
  y : Option Int := none
  PROTECTED : Bool := false
deriving Repr, DecidableEq

instance : Inhabited Event := ⟨⟨0, "", none, none, false⟩⟩

/-- The random source: `random.Random` embedded as a stream of naturals.
Every primitive draw (`random()`, `randint`, `choice`, one step of `shuffle`
or `sample`) consumes exactly one element; an exhausted stream reads 0. -/
abbrev Rng := List Nat

/-- One raw draw from the stream. -/
def rngNext (g : Rng) : Nat × Rng := (g.headI, g.tail)

/-- An exact unnormalized fraction, embedding the source's float arithmetic on
probabilities and minute estimates (whose values and comparisons all fit exact
rationals).  Every fraction constructed here has a positive denominator, under
which convention `blt`/`ble` are the exact order. -/
structure Frac where
  num : Int
  den : Int
deriving Repr, DecidableEq

/-- Exact fraction addition (no normalization). -/
def Frac.add (a b : Frac) : Frac := ⟨a.num * b.den + b.num * a.den, a.den * b.den⟩

/-- Exact fraction multiplication (no normalization). -/
def Frac.mul (a b : Frac) : Frac := ⟨a.num * b.num, a.den * b.den⟩

/-- Exact fraction subtraction (no normalization). -/
def Frac.sub (a b : Frac) : Frac := ⟨a.num * b.den - b.num * a.den, a.den * b.den⟩

/-- Exact strict order by cross multiplication (positive denominators). -/
def Frac.blt (a b : Frac) : Bool := decide (a.num * b.den < b.num * a.den)

/-- Exact non-strict order by cross multiplication (positive denominators). -/
def Frac.ble (a b : Frac) : Bool := decide (a.num * b.den ≤ b.num * a.den)

/-- The integer `n` as a fraction. -/
def Frac.ofInt (n : Int) : Frac := ⟨n, 1⟩

/-- Embeds `rng.random()`: a rational in `[0,1)` with three decimal digits of
granularity, enough to express every probability threshold in the source
exactly. -/
def rand01 (g : Rng) : Frac × Rng :=
  (⟨(g.headI % 1000 : Nat), 1000⟩, g.tail)

/-- Embeds `rng.randint(a, b)` (inclusive bounds): a value in `[a, b]` chosen
by the stream; degenerate ranges return `a`. -/
def randint (a b : Int) (g : Rng) : Int × Rng :=
  let n := (b - a + 1).toNat
  (if n = 0 then a else a + ((g.headI % n : Nat) : Int), g.tail)

/-- Embeds `rng.choice(l)` for nonempty `l`: an element of `l` chosen by the
stream (callers in the source guard nonemptiness). -/
def choiceD [Inhabited α] (l : List α) (g : Rng) : α × Rng :=
  (l.getD (g.headI % l.length) default, g.tail)

/-- Embeds `rng.sample(l, k)`: `k` distinct positions of `l`, drawn by
repeatedly removing a stream-chosen element. -/
def sample (l : List α) : Nat → Rng → List α × Rng
  | 0, g => ([], g)
  | k + 1, g =>
    let (h, g₁) := rngNext g
    match l.get? (h % l.length) with
    | none => ([], g₁)
    | some a =>
      let (rest, g₂) := sample (l.eraseIdx (h % l.length)) k g₁
      (a :: rest, g₂)

/-- Recursion core of `shuffle`, with the list length as fuel. -/
def shuffleGo : Nat → List α → Rng → List α × Rng
  | 0, l, g => (l, g)
  | _ + 1, [], g => ([], g)
  | n + 1, l@(_ :: _), g =>
    let (h, g₁) := rngNext g
    match l.get? (h % l.length) with
    | none => (l, g₁)
    | some a =>
      match shuffleGo n (l.eraseIdx (h % l.length)) g₁ with
      | (rest, g₂) => (a :: rest, g₂)

/-- Embeds `rng.shuffle(l)` (in-place Fisher-Yates in the source): a
stream-chosen permutation of `l`. -/
def shuffle (l : List α) (g : Rng) : List α × Rng :=
  shuffleGo l.length l g

/-- Substring test on character lists, embedding Python's `needle in haystack`
for strings. -/
def charsHasSub [DecidableEq α] (needle hay : List α) : Bool :=
  (List.range (hay.length + 1)).any (fun i => needle.isPrefixOf (hay.drop i))

/-- Embeds Python's `sub in s` on strings. -/
def strContains (needle hay : String) : Bool :=
  charsHasSub needle.toList hay.toList

/-- The protected `Type` substrings of `preserve_click_integrity`
(src lines 176-179). -/
def protectedTypes : List String :=
  ["MouseDown", "MouseUp", "LeftDown", "LeftUp", "RightDown", "RightUp",
   "DragStart", "DragEnd", "Click", "LeftClick", "RightClick", "Button"]

/-- Embeds `preserve_click_integrity` (src lines 169-187): events whose `Type`
contains a committed-input substring get `PROTECTED := true`; times are
re-coerced to int but not changed. -/
def preserve_click_integrity (events : List Event) : List Event :=
  events.map (fun e =>
    if protectedTypes.any (fun t => strContains t e.typ) then
      { e with time := e.time, PROTECTED := true }
    else e)

/-- Embeds `is_protected_event` (src lines 189-190). -/
def is_protected_event (e : Event) : Bool := e.PROTECTED

/-- Stable insertion (by event time) used to embed Python's stable
`list.sort(key=lambda x: (x[1], x[2]))` in `process_macro_file`: an incoming
event goes after every already-placed event of smaller-or-equal time. -/
def insertByTime (e : Event) : List Event → List Event
  | [] => [e]
  | a :: t => if a.time ≤ e.time then a :: insertByTime e t else e :: a :: t

/-- Stable sort by time (insertion from the left preserves the original order
of equal-time events, matching the `(time, original index)` sort key). -/
def sortByTime (l : List Event) : List Event :=
  l.foldl (fun acc e => insertByTime e acc) []

/-- Embeds `l[-1]['Time'] if l else 0` (src lines 166 and 223). -/
def lastTimeD (l : List Event) : Int :=
  ((l.getLast?).map Event.time).getD 0

/-- Embeds `process_macro_file` (src lines 125-167): stable-sort by time,
shift so the minimum time becomes 0, drop the leading run of `KeyUp`/`KeyDown`
events, and return the cleaned list with its last time as duration. -/
def process_macro_file (events : List Event) : List Event × Int :=
  if events = [] then ([], 0)
  else
    let sorted := sortByTime events
    let min_t := sorted.headI.time
    let shifted := sorted.map (fun e => { e with time := e.time - min_t })
    let cleaned := shifted.dropWhile (fun e => e.typ = "KeyUp" ∨ e.typ = "KeyDown")
    (cleaned, lastTimeD cleaned)

/-- Embeds `merge_events_with_pauses` (src lines 219-231): shift the new
events so their first lands `pause_ms` after the base's last time, append. -/
def merge_events_with_pauses (base_events new_events : List Event)
    (pause_ms : Int) : List Event :=
  if new_events = [] then base_events
  else
    let last_time := lastTimeD base_events
    let new_macro_start_time := new_events.headI.time
    let time_shift := last_time + pause_ms - new_macro_start_time
    base_events ++ new_events.map (fun e => { e with time := e.time + time_shift })

/-- Embeds the suffix shift loops `for j in range(k, len(evs)): evs[j].Time += d`
of the pause-injection stages. -/
def shiftSuffix (k : Nat) (d : Int) : List Event → List Event
  | [] => []
  | e :: t =>
    match k with
    | 0 => { e with time := e.time + d } :: shiftSuffix 0 d t
    | k' + 1 => e :: shiftSuffix k' d t

/-- Embeds `calculate_afk_budget` (src lines 262-264).  The source computes
`max(0, int(total*2/3 - current))` in float; for a positive value the int
truncation is the floor, and a nonpositive value is clamped to 0 either way,
so this equals `max 0 ((2*total - 3*current).fdiv 3)` exactly. -/
def calculate_afk_budget (total_event_time_ms current_afk_time_ms : Int) : Int :=
  max 0 ((2 * total_event_time_ms - 3 * current_afk_time_ms).fdiv 3)

/-- The click-like `Type` substrings checked by `add_mouse_jitter`
(src line 348). -/
def jitterTypes : List String := ["Click", "LeftClick", "DragStart", "DragEnd", "button"]

/-- Embeds `add_mouse_jitter` (src lines 339-358) at its pipeline call sites,
where `target_zones`/`excluded_zones` are empty (the generator passes none, so
the zone filters always admit the event) and the `is_desktop` argument is
unused by the body.  Protected events pass through; click-like events with
coordinates get each coordinate nudged by a stream-chosen element of
`[-1, 0, 1]`; times are never altered. -/
def add_mouse_jitter : List Event → Rng → List Event × Rng
  | [], g => ([], g)
  | e :: rest, g =>
    if is_protected_event e then
      let (t, g') := add_mouse_jitter rest g
      (e :: t, g')
    else
      let is_click := jitterTypes.any (fun t => strContains t e.typ)
      if is_click ∧ e.x.isSome ∧ e.y.isSome then
        let (dx, g₁) := choiceD [(-1 : Int), 0, 1] g
        let (dy, g₂) := choiceD [(-1 : Int), 0, 1] g₁
        let (t, g') := add_mouse_jitter rest g₂
        ({ e with x := e.x.map (· + dx), y := e.y.map (· + dy) } :: t, g')
      else
        let (t, g') := add_mouse_jitter rest g
        (e :: t, g')

/-- The `Type` substrings exempted inside `add_reaction_variance`
(src line 325). -/
def reactionExemptTypes : List String := ["Click", "Down", "Up"]

/-- Recursion core of `add_reaction_variance`, carrying the previous emitted
event time and the enumeration index. -/
def add_reaction_variance_go (g : Rng) (prev_event_time : Int) (i : Nat) :
    List Event → List Event × Rng
  | [] => ([], g)
  | e :: rest =>
    if is_protected_event e then
      let r := add_reaction_variance_go g e.time (i + 1) rest
      (e :: r.1, r.2)
    else if reactionExemptTypes.any (fun t => strContains t e.typ) then
      let r := add_reaction_variance_go g e.time (i + 1) rest
      (e :: r.1, r.2)
    else
      let current_time := e.time
      let gap_since_last := current_time - prev_event_time
      if i > 0 then
        let dr := rand01 g
        if dr.1.blt ⟨3, 10⟩ ∧ gap_since_last ≥ 500 then
          let dd := randint 200 600 dr.2
          let r := add_reaction_variance_go dd.2 (current_time + dd.1) (i + 1) rest
          ({ e with time := current_time + dd.1 } :: r.1, r.2)
        else
          let r := add_reaction_variance_go dr.2 current_time (i + 1) rest
          (e :: r.1, r.2)
      else
        let r := add_reaction_variance_go g current_time (i + 1) rest
        (e :: r.1, r.2)

/-- Embeds `add_reaction_variance` (src lines 315-337): protected and
click/down/up-typed events pass through and reset the reference time; any
other event past the first, with 0.3 probability and a ≥500ms gap since the
previous (possibly shifted) event, is delayed by a stream-chosen 200-600ms.
The delay applies to that event only. -/
def add_reaction_variance (events : List Event) (g : Rng) : List Event × Rng :=
  add_reaction_variance_go g 0 0 events

/-- An event that `add_time_of_day_fatigue`/`insert_intra_pauses` treat as a
click: `is_protected_event(preserve_click_integrity([e])[0])` (src lines
270-271, 370-371, 409-410), i.e. already marked or of protected type. -/
def protLike (e : Event) : Bool :=
  is_protected_event ((preserve_click_integrity [e]).headI)

/-- Descending insertion for natural numbers (Python `sorted(l, reverse=True)`). -/
def insertDescNat (n : Nat) : List Nat → List Nat
  | [] => [n]
  | a :: t => if n ≤ a then a :: insertDescNat n t else n :: a :: t

/-- Embeds `sorted(l, reverse=True)` on naturals. -/
def sortDescNat (l : List Nat) : List Nat :=
  l.foldl (fun acc n => insertDescNat n acc) []

/-- Ascending insertion for natural numbers (Python `sorted(l)`). -/
def insertAscNat (n : Nat) : List Nat → List Nat
  | [] => [n]
  | a :: t => if a ≤ n then a :: insertAscNat n t else n :: a :: t

/-- Embeds `sorted(l)` on naturals. -/
def sortAscNat (l : List Nat) : List Nat :=
  l.foldl (fun acc n => insertAscNat n acc) []

/-- The pause-application loop of `add_time_of_day_fatigue` (src lines
390-397): for each location (descending), draw 0-72000ms, clamp to the
remaining cap, shift the suffix, and deduct from the cap. -/
def applyFatiguePauses (evs : List Event) (g : Rng) (max_pause_ms : Int) :
    List Nat → List Event × Int × Rng
  | [] => (evs, 0, g)
  | gap_idx :: rest =>
    let (base_pause, g₁) := randint 0 72000 g
    let actual_pause := min base_pause max_pause_ms
    if actual_pause > 0 then
      let evs' := shiftSuffix (gap_idx + 1) actual_pause evs
      let (evs'', total, g₂) :=
        applyFatiguePauses evs' g₁ (max 0 (max_pause_ms - actual_pause)) rest
      (evs'', actual_pause + total, g₂)
    else
      applyFatiguePauses evs g₁ max_pause_ms rest

/-- Safe gap locations of `add_time_of_day_fatigue` (src lines 374-382): gap
indices not within `(-100, 1000)` ms before any click time. -/
def fatigueSafeLocations (evs : List Event) (click_times : List Int) : List Nat :=
  (List.range (evs.length - 1)).filter (fun gap_idx =>
    click_times.all (fun click_time =>
      !(decide ((evs.getD gap_idx default).time - click_time < 1000 ∧
                (evs.getD gap_idx default).time - click_time > -100))))

/-- Embeds `add_time_of_day_fatigue` (src lines 360-399): unless the trace is
time-sensitive or a 0.20-probability skip fires, up to 3 pauses of 0-72000ms,
each clamped to the remaining `max_pause_ms` cap, are inserted at stream-chosen
safe gap locations, shifting every later event; returns the new events and the
total added. -/
def add_time_of_day_fatigue (events : List Event) (g : Rng)
    (is_time_sensitive : Bool) (max_pause_ms : Int) : List Event × Int × Rng :=
  if events = [] ∨ is_time_sensitive then (events, 0, g)
  else
    let (r, g₀) := rand01 g
    if r.blt ⟨20, 100⟩ then (events, 0, g₀)
    else if events.length < 2 then (events, 0, g₀)
    else
      let (num_pauses, g₁) := randint 0 3 g₀
      if num_pauses = 0 then (events, 0, g₁)
      else
        let click_times := (events.filter protLike).map Event.time
        let safe_locations := fatigueSafeLocations events click_times
        if safe_locations = [] then (events, 0, g₁)
        else
          let n := min num_pauses.toNat safe_locations.length
          let (pause_locations, g₂) := sample safe_locations n g₁
          applyFatiguePauses events g₂ max_pause_ms (sortDescNat pause_locations)

/-- One recorded intra-trace pause (an entry of `pauses_info`, src line 436). -/
structure PauseInfo where
  after_event_index : Nat
  pause_ms : Int
deriving Repr, DecidableEq

/-- Safe gap locations of `insert_intra_pauses` (src lines 413-421): gap
indices at absolute distance ≥ 1000ms from every click time. -/
def intraSafeLocations (evs : List Event) (click_times : List Int) : List Nat :=
  (List.range (evs.length - 1)).filter (fun gap_idx =>
    click_times.all (fun click_time =>
      !(decide (|(evs.getD gap_idx default).time - click_time| < 1000))))

/-- The pause-application loop of `insert_intra_pauses` (src lines 429-437):
for each chosen location (ascending), draw a pause, clamp it to the remaining
budget, shift the suffix, record it, and deduct from the budget. -/
def applyIntraPauses (evs : List Event) (g : Rng) (max_pause_s : Int)
    (max_allowed_total_afk : Int) : List Nat → List Event × List PauseInfo × Rng
  | [] => (evs, [], g)
  | gap_idx :: rest =>
    let (raw_pause, g₁) := randint 0 (max_pause_s * 1000) g
    let pause_ms := min raw_pause max_allowed_total_afk
    if pause_ms > 0 then
      let evs' := shiftSuffix (gap_idx + 1) pause_ms evs
      let (evs'', info, g₂) :=
        applyIntraPauses evs' g₁ max_pause_s (max 0 (max_allowed_total_afk - pause_ms)) rest
      (evs'', ⟨gap_idx, pause_ms⟩ :: info, g₂)
    else
      applyIntraPauses evs g₁ max_pause_s max_allowed_total_afk rest

/-- Embeds `insert_intra_pauses` (src lines 401-439): a no-op returning no
pauses unless the trace is time-sensitive with at least 2 events; otherwise up
to `max_num_pauses` budget-clamped pauses at stream-chosen safe locations. -/
def insert_intra_pauses (events : List Event) (g : Rng) (is_time_sensitive : Bool)
    (max_pause_s : Int) (max_num_pauses : Int) (max_allowed_total_afk : Int) :
    List Event × List PauseInfo × Rng :=
  if events = [] ∨ events.length < 2 ∨ ¬ is_time_sensitive then (events, [], g)
  else
    let nd := randint 0 max_num_pauses g
    if nd.1 = 0 then (events, [], nd.2)
    else
      let click_times := (events.filter protLike).map Event.time
      let safe_locations := intraSafeLocations events click_times
      if safe_locations = [] then (events, [], nd.2)
      else
        let n := min nd.1.toNat safe_locations.length
        let ch := sample safe_locations n nd.2
        applyIntraPauses events ch.2 max_pause_s max_allowed_total_afk (sortAscNat ch.1)

/-- Embeds `add_afk_pause` (src lines 441-461): with the stream's coin, draw
60-300s (p=0.7) or 300-1200s of AFK, clamp to `max_allowed_ms`, and shift the
suffix from a stream-chosen index in the middle half of the trace. -/
def add_afk_pause (events : List Event) (g : Rng) (max_allowed_ms : Int) :
    List Event × Int × Rng :=
  if events = [] ∨ max_allowed_ms ≤ 0 then (events, 0, g)
  else
    let r := rand01 g
    let sdraw :=
      if r.1.blt ⟨7, 10⟩ then randint 60 300 r.2 else randint 300 1200 r.2
    let afk_ms := min (sdraw.1 * 1000) max_allowed_ms
    if afk_ms ≤ 0 then (events, 0, sdraw.2)
    else
      let idraw :=
        if events.length > 1 then
          randint ((events.length : Int) / 4) (3 * (events.length : Int) / 4) sdraw.2
        else ((0 : Int), sdraw.2)
      (shiftSuffix idraw.1.toNat afk_ms events, afk_ms, idraw.2)

/-- The non-selector inputs of `generate_version_for_folder` that steer the
per-file pipeline: CLI pause bounds (src lines 548, 782-784), the folder's
time-sensitivity and desktop-ness (src lines 632, 648), and the exemption
configuration (src lines 53-65, 633-635). -/
structure GenParams where
  within_max_s : Int
  within_max_pauses : Int
  between_max_s : Int
  is_time_sensitive : Bool
  is_desktop : Bool
  auto_detect_time_sensitive : Bool
  disable_intra_pauses_cfg : Bool
  disable_inter_pauses_cfg : Bool
deriving Repr, DecidableEq

/-- Derived flag `disable_intra_pauses` (src line 634). -/
def GenParams.disable_intra_pauses (p : GenParams) : Bool :=
  p.disable_intra_pauses_cfg ∨ (p.is_time_sensitive ∧ p.auto_detect_time_sensitive)

/-- Derived flag `disable_inter_pauses` (src line 635). -/
def GenParams.disable_inter_pauses (p : GenParams) : Bool :=
  p.disable_inter_pauses_cfg ∨ (p.is_time_sensitive ∧ p.auto_detect_time_sensitive)

/-- The per-version accumulators of `generate_version_for_folder` (src lines
627-630): the merged timeline, the summed real macro durations, and the summed
injected pause time. -/
structure MergeState where
  all_events : List Event
  total_duration_ms : Int
  total_pause_ms : Int
deriving Repr, DecidableEq

/-- The anti-detection chain of the merging loop (src lines 651-667): jitter,
desktop-only synthetic mouse paths, reaction variance, and (for
non-time-sensitive folders) a budget-capped fatigue pause.  `desktopPaths`
abstracts `add_desktop_mouse_paths` (desktop folders only; its internals
decide no claim, since the pipeline renormalizes right after it). -/
def antiDetection (desktopPaths : List Event → Rng → List Event × Rng)
    (p : GenParams) (st : MergeState) (g : Rng) (zb : List Event) :
    List Event × Int × Rng :=
  if ¬ p.is_desktop then
    let (zb, g) := add_mouse_jitter zb g
    let (zb, g) := add_reaction_variance zb g
    if ¬ p.is_time_sensitive then
      let budget := calculate_afk_budget st.total_duration_ms st.total_pause_ms
      let (zb, added_afk, g) := add_time_of_day_fatigue zb g false budget
      (zb, added_afk, g)
    else (zb, 0, g)
  else
    let (zb, g) := add_mouse_jitter zb g
    let (zb, g) := desktopPaths zb g
    let (zb, g) := add_reaction_variance zb g
    if ¬ p.is_time_sensitive then
      let budget := calculate_afk_budget st.total_duration_ms st.total_pause_ms
      let (zb, added_afk, g) := add_time_of_day_fatigue zb g false budget
      (zb, added_afk, g)
    else (zb, 0, g)

/-- The humanization block of the merging loop (src lines 645-690): the
anti-detection chain (src lines 651-667), the renormalization of src line 669,
the time-sensitive intra-pause block (src lines 672-679) and the coin-flipped
AFK pause (src lines 682-686), accumulating `file_added_afk`; the special file
skips everything. -/
def humanizeFile (desktopPaths : List Event → Rng → List Event × Rng)
    (p : GenParams) (st : MergeState) (g : Rng) (is_special : Bool)
    (events : List Event) : List Event × Int × Rng :=
  if ¬ is_special then
    let zb₀ := preserve_click_integrity events
    let ad := antiDetection desktopPaths p st g zb₀
    let zb := (process_macro_file ad.1).1
    let ipr :=
      if p.is_time_sensitive then
        if ¬ p.disable_intra_pauses_cfg then
          let budget := calculate_afk_budget st.total_duration_ms st.total_pause_ms
          let ins := insert_intra_pauses zb ad.2.2 true p.within_max_s p.within_max_pauses budget
          (ins.1, ad.2.1 + ((ins.2.1).map PauseInfo.pause_ms).sum, ins.2.2)
        else (zb, ad.2.1, ad.2.2)
      else (zb, ad.2.1, ad.2.2)
    let r := rand01 ipr.2.2
    if r.1.blt ⟨5, 10⟩ then
      let budget := calculate_afk_budget st.total_duration_ms st.total_pause_ms
      let ak := add_afk_pause ipr.1 r.2 budget
      (ak.1, ipr.2.1 + ak.2.1, ak.2.2)
    else (ipr.1, ipr.2.1, r.2)
  else (events, 0, g)

/-- The inter-file pause draw of the merging loop (src lines 693-703). -/
def drawInterPause (p : GenParams) (st : MergeState) (g : Rng) (i : Nat) :
    Int × Rng :=
  if i > 0 ∧ ¬ p.disable_inter_pauses then
    let budget := calculate_afk_budget st.total_duration_ms st.total_pause_ms
    let rp :=
      if p.is_time_sensitive ∧ p.disable_inter_pauses_cfg then randint 100 500 g
      else if p.is_time_sensitive then randint 0 (p.between_max_s * 1000) g
      else randint 500 (p.between_max_s * 1000) g
    (min rp.1 budget, rp.2)
  else ((0 : Int), g)

/-- Embeds one iteration of the merging loop of `generate_version_for_folder`
(src lines 639-724, omitting the manifest bookkeeping): normalize the file,
humanize it, draw the inter-file pause, merge, and update the running totals
once at the end.  `is_special` names the variable the source reads at line 647
but never binds (running that line raises NameError; the evident intent,
modelled here, is a flag marking the special screenshare file, which skips all
humanization). -/
def processFile (desktopPaths : List Event → Rng → List Event × Rng)
    (p : GenParams) (st : MergeState) (g : Rng) (i : Nat) (is_special : Bool)
    (file_events : List Event) : MergeState × Rng :=
  let pm := process_macro_file file_events
  if pm.1 = [] then (st, g)
  else
    let hz := humanizeFile desktopPaths p st g is_special pm.1
    let ip := drawInterPause p st hz.2.2 i
    ({ all_events := merge_events_with_pauses st.all_events hz.1 ip.1,
       total_duration_ms := st.total_duration_ms + pm.2,
       total_pause_ms := st.total_pause_ms + ip.1 + hz.2.1 }, ip.2)

/-- Embeds the whole merging loop of `generate_version_for_folder` over the
final selected files, each given as its `is_special` flag and loaded events. -/
def mergeFiles (desktopPaths : List Event → Rng → List Event × Rng)
    (p : GenParams) : List (Bool × List Event) → MergeState → Rng → Nat → MergeState × Rng
  | [], st, g, _ => (st, g)
  | (is_special, file_events) :: rest, st, g, i =>
    let r := processFile desktopPaths p st g i is_special file_events
    mergeFiles desktopPaths p rest r.1 r.2 (i + 1)

/-- State of `GlobalFileSelector` (src lines 467-483).  The source also caches
`file_durations` (computed at init from the loaded files, fallback 2.0
minutes); callers here pass that map explicitly.  `cycle` and `log` are proof
instrumentation, not source state: `cycle` counts pool refills and `log`
records every pick with the refill cycle it happened in. -/
structure GlobalFileSelector where
  rng : Rng
  all_files : List String
  global_used_files : List String
  current_pool : List String
  cycle : Nat
  log : List (Nat × String)
deriving Repr, DecidableEq

/-- Embeds `GlobalFileSelector.__init__` (src lines 468-483): shuffle a copy
of the files into the active pool. -/
def GlobalFileSelector.init (g : Rng) (all_files : List String) : GlobalFileSelector :=
  let sh := shuffle all_files g
  { rng := sh.2, all_files := all_files, global_used_files := [],
    current_pool := sh.1, cycle := 0, log := [] }

/-- The pool refill of `get_files_for_time` (src lines 503-507): clear the
global used set and reshuffle a fresh copy of all files. -/
def refillPool (st : GlobalFileSelector) : GlobalFileSelector :=
  let sh := shuffle st.all_files st.rng
  { st with global_used_files := [], current_pool := sh.1, rng := sh.2,
            cycle := st.cycle + 1 }

/-- First element attaining the minimal duration, embedding Python's
`min(candidates, key=...)` (src line 526). -/
def minByDur (durations : String → Frac) : List String → Option String
  | [] => none
  | a :: rest =>
    match minByDur durations rest with
    | none => some a
    | some b => if (durations b).blt (durations a) then some b else some a

/-- The best-fit pick of `get_files_for_time` (src lines 515-529): near the
target, prefer a stream-chosen file fitting the remaining gap, else the
smallest candidate; otherwise a stream-chosen candidate. -/
def bestFitPick (durations : String → Frac) (remaining_gap : Frac)
    (candidates : List String) (g : Rng) : Option String × Rng :=
  if remaining_gap.blt (Frac.ofInt 15) then
    let fitting := candidates.filter (fun f => (durations f).ble (remaining_gap.add (Frac.ofInt 5)))
    if fitting ≠ [] then
      let c := choiceD fitting g
      ((some c.1 : Option String), c.2)
    else
      match minByDur durations candidates with
      | some b => ((some b : Option String), g)
      | none => ((none : Option String), g)
  else ((none : Option String), g)

/-- The fallback draw completing the pick (src lines 528-529). -/
def pickCandidate (durations : String → Frac) (remaining_gap : Frac)
    (candidates : List String) (g : Rng) : Option String × Rng :=
  let bf := bestFitPick durations remaining_gap candidates g
  if bf.1.isNone then
    if candidates ≠ [] then
      let c := choiceD candidates bf.2
      ((some c.1 : Option String), c.2)
    else bf
  else bf

/-- The candidate computation of `get_files_for_time` (src lines 499-510):
filter the pool against this merge's used set; on exhaustion refill (reset the
cycle) and re-filter, falling back to the full file list. -/
def selectCandidates (used_in_this_merge : List String)
    (st : GlobalFileSelector) : List String × GlobalFileSelector :=
  let cand₀ := st.current_pool.filter (fun f => decide (f ∉ used_in_this_merge))
  if cand₀ = [] then
    let st' := refillPool st
    let c₂ := st'.current_pool.filter (fun f => decide (f ∉ used_in_this_merge))
    ((if c₂ = [] then st'.all_files else c₂), st')
  else (cand₀, st)

/-- The per-pick bookkeeping of `get_files_for_time` (src lines 531-541):
record the pick globally, remove it from the active pool, and log it with the
current refill cycle (instrumentation). -/
def drawBookkeep (f : String) (g' : Rng) (st : GlobalFileSelector) :
    GlobalFileSelector :=
  { st with rng := g', global_used_files := f :: st.global_used_files,
            current_pool := st.current_pool.erase f,
            log := st.log ++ [(st.cycle, f)] }

/-- The `while` loop of `get_files_for_time` (src lines 498-543), with
explicit fuel (the source's termination rests on the 0.08-minute per-pick
overhead): compute candidates, pick, book-keep, and account the estimate. -/
def getFilesLoop (durations : String → Frac) (target_minutes : Frac) :
    Nat → GlobalFileSelector → List String → List String → Frac →
    List String × GlobalFileSelector
  | 0, st, selected, _, _ => (selected.reverse, st)
  | fuel + 1, st, selected, used_in_this_merge, estimated_total =>
    if estimated_total.blt (target_minutes.mul ⟨9, 10⟩) then
      let cs := selectCandidates used_in_this_merge st
      if cs.1 = [] then (selected.reverse, cs.2)
      else
        let pk := pickCandidate durations (target_minutes.sub estimated_total) cs.1 cs.2.rng
        match pk.1 with
        | some f =>
          getFilesLoop durations target_minutes fuel (drawBookkeep f pk.2 cs.2)
            (f :: selected) (f :: used_in_this_merge)
            ((estimated_total.add (durations f)).add ⟨8, 100⟩)
        | none => (selected.reverse, { cs.2 with rng := pk.2 })
    else (selected.reverse, st)

/-- Embeds `GlobalFileSelector.get_files_for_time` (src lines 485-545). -/
def get_files_for_time (durations : String → Frac) (target_minutes : Frac)
    (fuel : Nat) (st : GlobalFileSelector) : List String × GlobalFileSelector :=
  getFilesLoop durations target_minutes fuel st [] [] (Frac.ofInt 0)

/-- The `always first`/`always last` filename markers (src lines 560, 585-589).
`Path(f).name` is embedded as the file string itself. -/
def alwaysPrefixes : List String :=
  ["always first", "always last", "-always first", "-always last"]

/-- ASCII lowercasing of a code point (the filename markers are ASCII). -/
def lowerCode (n : Nat) : Nat := if 65 ≤ n ∧ n ≤ 90 then n + 32 else n

/-- Embeds `Path(f).name.lower().startswith(pre)` for the ASCII markers, as a
prefix test on lowercased code points. -/
def lowerStartsWith (pre s : String) : Bool :=
  (pre.toList.map (fun c => lowerCode c.toNat)).isPrefixOf
    (s.toList.map (fun c => lowerCode c.toNat))

/-- Embeds the always-file test (src line 560). -/
def isAlwaysFile (f : String) : Bool :=
  alwaysPrefixes.any (fun pre => lowerStartsWith pre f)

/-- Embeds the ordering key of src lines 585-589: always-first 0, always-last
2, everything else 1. -/
def sortKeyAlways (f : String) : Nat :=
  if lowerStartsWith "always first" f then 0
  else if lowerStartsWith "always last" f then 2
  else 1

/-- Stable insertion by a natural key (Python's stable `list.sort(key=...)`). -/
def insertByKey (key : String → Nat) (f : String) : List String → List String
  | [] => [f]
  | a :: t => if key a ≤ key f then a :: insertByKey key f t else f :: a :: t

/-- Stable sort by a natural key. -/
def sortByKey (key : String → Nat) (l : List String) : List String :=
  l.foldl (fun acc f => insertByKey key f acc) []

/-- The `SPECIAL_KEYWORD` constant (src line 12). -/
def SPECIAL_KEYWORD : String := "screensharelink"

/-- The random-exclusion phase of `generate_version_for_folder` (src lines
558-579): always-first/last files are exempt; at least three regular files are
kept; the excluded set is a stream-drawn sample. -/
def applyExclusion (exclude_count : Nat) (selected_files : List String)
    (g : Rng) : List String × Rng :=
  let always_first_last := selected_files.filter isAlwaysFile
  let eligible_for_exclusion :=
    selected_files.filter (fun f => decide (f ∉ always_first_last))
  let n_total := eligible_for_exclusion.length
  let files_to_exclude_count :=
    if n_total ≤ 3 then 0 else min exclude_count (n_total - 3)
  let ex := sample eligible_for_exclusion files_to_exclude_count g
  (selected_files.filter (fun f => decide (f ∉ ex.1)), ex.2)

/-- The ordering, special-file fronting and file-count cap of
`generate_version_for_folder` (src lines 584-624). -/
def orderAndCap (special_file : Option String)
    (max_files_per_version : Option Nat) (final₀ : List String) (g : Rng) :
    List String × Rng :=
  let final₁ := sortByKey sortKeyAlways final₀
  let final₂ :=
    match special_file with
    | some sp => if sp ∈ final₁ then sp :: final₁.erase sp else final₁
    | none => final₁
  match max_files_per_version with
  | some m =>
    if final₂.length > m then
      let preserved := final₂.filter (fun (f : String) =>
        (lowerStartsWith "always first" f ||
         lowerStartsWith "always last" f ||
         lowerStartsWith SPECIAL_KEYWORD f : Bool))
      if preserved.length < m then
        let removable := final₂.filter (fun f => decide (f ∉ preserved))
        if removable.length > m - preserved.length then
          let ee := sample removable (removable.length - (m - preserved.length)) g
          (sortByKey sortKeyAlways
            (final₂.filter (fun f => decide (f ∉ ee.1))), ee.2)
        else (sortByKey sortKeyAlways final₂, g)
      else (sortByKey sortKeyAlways (preserved.take m), g)
    else (final₂, g)
  | none => (final₂, g)

/-- The merging loop over the final file list (src lines 626-727), producing
the version's event list and accumulators. -/
def assembleVersion (load : String → List Event) (p : GenParams)
    (special_file : Option String)
    (desktopPaths : List Event → Rng → List Event × Rng)
    (files : List String) (g : Rng) : (List Event × MergeState) × Rng :=
  let mf := mergeFiles desktopPaths p
    (files.map (fun f => (decide (special_file = some f), load f)))
    ⟨[], 0, 0⟩ g 0
  ((mf.1.all_events, mf.1), mf.2)

/-- Embeds `generate_version_for_folder` (src lines 548-773) up to its merged
event list: selection, random exclusion, ordering, special-file fronting, the
optional file-count cap, and the merging loop.  `load` stands for
`load_json_events`+parsing (file I/O), `durations` for the selector's cached
duration estimates, `special_file` for `locate_special_file` (filesystem
search, src lines 233-241).  Output naming and manifest text are I/O glue and
are not modelled; the returned value is the merged events with the final
accumulators, or `none` where the source returns its empty result. -/
def generate_version_for_folder (load : String → List Event)
    (durations : String → Frac) (fuel : Nat) (target_minutes : Frac)
    (exclude_count : Nat) (p : GenParams) (special_file : Option String)
    (max_files_per_version : Option Nat)
    (desktopPaths : List Event → Rng → List Event × Rng)
    (st : GlobalFileSelector) :
    Option (List Event × MergeState) × GlobalFileSelector :=
  let sel := get_files_for_time durations target_minutes fuel st
  if sel.1 = [] then (none, sel.2)
  else
    let fx := applyExclusion exclude_count sel.1 sel.2.rng
    if fx.1 = [] then (none, { sel.2 with rng := fx.2 })
    else
      let oc := orderAndCap special_file max_files_per_version fx.1 fx.2
      let av := assembleVersion load p special_file desktopPaths oc.1 oc.2
      (some av.1, { sel.2 with rng := av.2 })

/-- Embeds the seeding of the shared random source in `main` (src lines
790-791): the generator is seeded from `os.urandom(10)`; the parsed `--seed`
argument (declared at src line 780) is never read, so the effective seed is
the entropy alone. -/
def seed_used (seed_arg : Option Int) (urandom_bytes : Nat) : Nat :=
  urandom_bytes

/-- Embeds a sequence of `get_files_for_time` calls against one selector, as
`main` performs across the versions of one folder (src lines 843-848). -/
def runCalls (durations : String → Frac) (calls : List (Frac × Nat))
    (st : GlobalFileSelector) : GlobalFileSelector :=
  calls.foldl (fun s c => (get_files_for_time durations c.1 c.2 s).2) st

/-- The picks recorded in refill cycle `c` of a selector run. -/
def cycleDraws (log : List (Nat × String)) (c : Nat) : List String :=
  (log.filter (fun pr => decide (pr.1 = c))).map Prod.snd

/-- The selector invariant behind coverage fairness: the file list and active
pool hold no duplicates, nothing already drawn in the current refill cycle is
still in the pool, the log only mentions past cycles, and every cycle's draws
are pairwise distinct. -/
def SelInv (st : GlobalFileSelector) : Prop :=
  st.all_files.Nodup ∧ st.current_pool.Nodup ∧
  (∀ f ∈ cycleDraws st.log st.cycle, f ∉ st.current_pool) ∧
  (∀ pr ∈ st.log, pr.1 ≤ st.cycle) ∧
  (∀ c, (cycleDraws st.log c).Nodup)

/-- Timeline monotonicity: consecutive event times are non-decreasing. -/
def TimesSorted (l : List Event) : Prop :=
  List.Chain' (fun a b => a.time ≤ b.time) l

instance : IsTrans Event (fun a b : Event => a.time ≤ b.time) :=
  ⟨fun _ _ _ h₁ h₂ => le_trans h₁ h₂⟩

/-- Pairwise form of `TimesSorted`, convenient for induction. -/
def TimesSortedP (l : List Event) : Prop :=
  List.Pairwise (fun a b : Event => a.time ≤ b.time) l

/-- Pipeline parameters of an ordinary (mobile, non-time-sensitive,
no-exemption) folder, as produced by `main`'s defaults: `--within-max-time 33`,
`--within-max-pauses 3`, `--between-max-time 18`. -/
def plainParams : GenParams := ⟨33, 3, 18, false, false, true, false, false⟩

/-- A 60-second two-event movement trace. -/
def c1File1 : List Event :=
  [⟨0, "MouseMove", none, none, false⟩, ⟨60000, "MouseMove", none, none, false⟩]

/-- A 10-second two-event movement trace. -/
def c1File2 : List Event :=
  [⟨0, "MouseMove", none, none, false⟩, ⟨10000, "MouseMove", none, none, false⟩]

/-- A random stream under which the second file's fatigue stage and AFK-pause
stage each consume the full stale budget and the inter-file pause draws 500ms. -/
def c1Stream : Rng := [999, 0, 999, 999, 999, 1, 0, 72000, 0, 0, 0, 0, 0]

/-- The version state after merging `c1File1` then `c1File2` under `c1Stream`. -/
def c1Run : MergeState :=
  (mergeFiles (fun evs g => (evs, g)) plainParams
    [(false, c1File1), (false, c1File2)] ⟨[], 0, 0⟩ c1Stream 0).1

/-- A trace with an unprotected first event and a protected click 5000ms in. -/
def c3Input : List Event :=
  [⟨0, "MouseMove", none, none, false⟩, ⟨5000, "Click", none, none, true⟩]

/-- The fatigue stage on `c3Input` under a stream drawing one 3000ms pause at
gap index 0, with budget 10000ms. -/
def c3Output : List Event :=
  (add_time_of_day_fatigue c3Input [999, 1, 0, 3000] false 10000).1

/-- A file starting with a key event: normalization shifts times so the
minimum is 0, then drops the key event, leaving a first time of 100. -/
def c6Input : List Event :=
  [⟨0, "KeyDown", none, none, false⟩, ⟨100, "MouseMove", none, none, false⟩]

/-- A normalized single-event trace whose first time is 0. -/
def c6Normalized : List Event := [⟨0, "MouseMove", none, none, false⟩]

/-- Three unprotected movement events. -/
def c7Input : List Event :=
  [⟨0, "MouseMove", none, none, false⟩, ⟨1000, "MouseMove", none, none, false⟩,
   ⟨3000, "MouseMove", none, none, false⟩]

/-- Reaction variance on `c7Input` under a stream that triggers a 400ms delay
on the second event only. -/
def c7Output : List Event :=
  (add_reaction_variance c7Input [0, 200, 999]).1

/-- A movement event followed by a protected click, for exemption witnesses. -/
def c7Prot : List Event :=
  [⟨0, "MouseMove", none, none, false⟩, ⟨700, "Click", none, none, true⟩]

/-- A one-event base timeline. -/
def c8Base : List Event := [⟨0, "MouseMove", none, none, false⟩]

/-- A two-event chunk to append. -/
def c8New : List Event :=
  [⟨5, "MouseMove", none, none, false⟩, ⟨12, "MouseMove", none, none, false⟩]

/-- A loader giving every file a two-event movement trace. -/
def c2Load : String → List Event :=
  fun _ => [⟨0, "MouseMove", none, none, false⟩, ⟨50, "MouseMove", none, none, false⟩]

/-- A duration table estimating every file at two minutes. -/
def c2Durations : String → Frac := fun _ => Frac.ofInt 2

/-- A concrete produced version: one special file, tiny target. -/
def c2Result : Option (List Event × MergeState) :=
  (generate_version_for_folder c2Load c2Durations 3 ⟨1, 100⟩ 10 plainParams
    (some "a") none (fun evs g => (evs, g)) (GlobalFileSelector.init [] ["a"])).1

/-- C10: for every event list whose trace is not flagged time-sensitive,
`insert_intra_pauses` returns the events unchanged with an empty pause list
(and an untouched random stream); intra-trace pause injection only ever
modifies time-sensitive traces. -/
theorem C10_intra_pauses_noop_when_not_time_sensitive
    (events : List Event) (g : Rng) (max_pause_s max_num_pauses budget : Int) :
    insert_intra_pauses events g false max_pause_s max_num_pauses budget =
      (events, [], g) := by
  simp [insert_intra_pauses]

/-- C5 (code bug record): the effective seed of the shared random source is
the `os.urandom` entropy alone — the `--seed` argument never influences it, so
two runs with the same fixed seed argument but different entropy diverge,
against the deterministic-per-seed claim. -/
theorem C5_seed_argument_ignored :
    (∀ s₁ s₂ : Option Int, ∀ u : Nat, seed_used s₁ u = seed_used s₂ u) ∧
    (∃ u₁ u₂ : Nat, u₁ ≠ u₂ ∧ seed_used (some 42) u₁ ≠ seed_used (some 42) u₂) :=
  ⟨fun _ _ _ => rfl, 0, 1, by decide, by decide⟩

/-- C1 (counterexample): a concrete two-file assembly on which the
accumulated injected pause time breaks `injected ≤ (2/3) × real` — the
fatigue and AFK stages of the second file each see the budget computed from
the totals as of the previous file, because the running `total_pause_ms` is
only updated after the merge, not between stages. -/
theorem C1_counterexample :
    3 * c1Run.total_pause_ms > 2 * c1Run.total_duration_ms ∧
    c1Run.total_pause_ms = 80500 ∧ c1Run.total_duration_ms = 70000 := by
  decide

/-- C3 (counterexample): the fatigue stage shifts a protected click from
offset 5000 to offset 8000 relative to its trace's first event, while the
first event itself is unshifted — so no single constant placement shift
accounts for the change. -/
theorem C3_counterexample :
    is_protected_event (c3Input.getD 1 default) = true ∧
    (c3Input.getD 1 default).time - (c3Input.getD 0 default).time = 5000 ∧
    (c3Output.getD 1 default).time - (c3Output.getD 0 default).time = 8000 ∧
    (c3Output.getD 0 default).time - (c3Input.getD 0 default).time ≠
      (c3Output.getD 1 default).time - (c3Input.getD 1 default).time := by
  decide

/-- C6 (counterexample): on a trace starting with a key event,
`process_macro_file` yields a first event time of 100 (not 0), and running it
again yields a different result (not idempotent). -/
theorem C6_counterexample :
    (process_macro_file c6Input).1.headI.time = 100 ∧ (100 : Int) ≠ 0 ∧
    process_macro_file ((process_macro_file c6Input).1) ≠
      process_macro_file c6Input := by
  decide

/-- C7 (counterexample): `add_reaction_variance` delays the second event by
400ms but leaves the subsequent non-protected event's time unchanged — the
delta is not applied forward cumulatively. -/
theorem C7_counterexample :
    is_protected_event (c7Input.getD 2 default) = false ∧
    (c7Output.getD 1 default).time = (c7Input.getD 1 default).time + 400 ∧
    (c7Output.getD 2 default).time = (c7Input.getD 2 default).time := by
  decide

theorem randint_bounds {a b : Int} (h : a ≤ b) (g : Rng) :
    a ≤ (randint a b g).1 ∧ (randint a b g).1 ≤ b := by
  simp only [randint]
  split
  · exact ⟨le_refl a, h⟩
  · rename_i hn
    have hpos : 0 < (b - a + 1).toNat := Nat.pos_of_ne_zero hn
    have := Nat.mod_lt g.headI hpos
    omega

theorem randint_nonneg {a : Int} (b : Int) (ha : 0 ≤ a) (g : Rng) :
    0 ≤ (randint a b g).1 := by
  simp only [randint]
  split
  · exact ha
  · positivity

theorem lastTimeD_eq_getLast (l : List Event) (h : l ≠ []) :
    lastTimeD l = (l.getLast h).time := by
  simp [lastTimeD, List.getLast?_eq_getLast_of_ne_nil h]

/-- C8: merging shifts the new events by the single constant
`base.last.time + gap − new.first.time` (so the first new event lands exactly
`gap` after the base's last event and all internal relative spacing is
preserved) and appends them to the unchanged base. -/
theorem C8_merge_shifts_and_appends (base new : List Event) (gap_ms : Int)
    (hb : base ≠ []) (hn : new ≠ []) :
    merge_events_with_pauses base new gap_ms =
      base ++ new.map (fun e =>
        { e with time := e.time + ((base.getLast hb).time + gap_ms - new.headI.time) }) ∧
    (merge_events_with_pauses base new gap_ms).take base.length = base ∧
    ((merge_events_with_pauses base new gap_ms).getD base.length default).time =
      (base.getLast hb).time + gap_ms := by
  have hmain : merge_events_with_pauses base new gap_ms =
      base ++ new.map (fun e =>
        { e with time := e.time + ((base.getLast hb).time + gap_ms - new.headI.time) }) := by
    simp [merge_events_with_pauses, if_neg hn, lastTimeD_eq_getLast base hb]
  refine ⟨hmain, ?_, ?_⟩
  · rw [hmain, List.take_left]
  · rw [hmain]
    obtain ⟨e, t, rfl⟩ := List.exists_cons_of_ne_nil hn
    rw [List.getD_eq_getElem?_getD, List.getElem?_append_right (by simp)]
    simp [List.headI]

theorem c8Base_ne : c8Base ≠ [] := by decide

/-- Witness for C8 at a concrete base, chunk, and gap. -/
theorem C8_witness :
    merge_events_with_pauses c8Base c8New 7 =
      c8Base ++ c8New.map (fun e =>
        { e with time := e.time + ((c8Base.getLast c8Base_ne).time + 7 - c8New.headI.time) }) ∧
    (merge_events_with_pauses c8Base c8New 7).take c8Base.length = c8Base ∧
    ((merge_events_with_pauses c8Base c8New 7).getD c8Base.length default).time =
      (c8Base.getLast c8Base_ne).time + 7 :=
  C8_merge_shifts_and_appends c8Base c8New 7 c8Base_ne (by decide)

theorem applyFatiguePauses_total_le (locs : List Nat) :
    ∀ (evs : List Event) (g : Rng) (m : Int),
      (applyFatiguePauses evs g m locs).2.1 ≤ max 0 m := by
  induction locs with
  | nil =>
    intro evs g m
    simp [applyFatiguePauses]
  | cons gi rest ih =>
    intro evs g m
    rcases hr : randint 0 72000 g with ⟨bp, g₁⟩
    simp only [applyFatiguePauses, hr]
    split
    · rename_i hpos
      rcases h2 : applyFatiguePauses (shiftSuffix (gi + 1) (min bp m) evs) g₁
          (max 0 (m - min bp m)) rest with ⟨evs₂, tot, g₂⟩
      have hrec := ih (shiftSuffix (gi + 1) (min bp m) evs) g₁ (max 0 (m - min bp m))
      rw [h2] at hrec
      simp only [h2] at hrec ⊢
      have h1 : min bp m ≤ m := min_le_right _ _
      omega
    · exact ih evs g₁ m

theorem applyIntraPauses_total_le (locs : List Nat) :
    ∀ (evs : List Event) (g : Rng) (s b : Int),
      (((applyIntraPauses evs g s b locs).2.1).map PauseInfo.pause_ms).sum ≤ max 0 b := by
  induction locs with
  | nil =>
    intro evs g s b
    simp [applyIntraPauses]
  | cons gi rest ih =>
    intro evs g s b
    rcases hr : randint 0 (s * 1000) g with ⟨rp, g₁⟩
    simp only [applyIntraPauses, hr]
    split
    · rename_i hpos
      rcases h2 : applyIntraPauses (shiftSuffix (gi + 1) (min rp b) evs) g₁ s
          (max 0 (b - min rp b)) rest with ⟨evs₂, info, g₂⟩
      have hrec := ih (shiftSuffix (gi + 1) (min rp b) evs) g₁ s (max 0 (b - min rp b))
      rw [h2] at hrec
      simp only [h2, List.map_cons, List.sum_cons] at hrec ⊢
      have h1 : min rp b ≤ b := min_le_right _ _
      omega
    · exact ih evs g₁ s b

theorem add_time_of_day_fatigue_le (events : List Event) (g : Rng)
    (ts : Bool) (m : Int) :
    (add_time_of_day_fatigue events g ts m).2.1 ≤ max 0 m := by
  simp only [add_time_of_day_fatigue]
  repeat' split
  any_goals exact le_max_left 0 m
  exact applyFatiguePauses_total_le _ _ _ _

theorem insert_intra_pauses_le (events : List Event) (g : Rng) (ts : Bool)
    (s np b : Int) :
    (((insert_intra_pauses events g ts s np b).2.1).map PauseInfo.pause_ms).sum ≤
      max 0 b := by
  simp only [insert_intra_pauses]
  repeat' split
  any_goals simpa using le_max_left 0 b
  exact applyIntraPauses_total_le _ _ _ _ _

theorem add_afk_pause_le (events : List Event) (g : Rng) (m : Int) :
    (add_afk_pause events g m).2.1 ≤ max 0 m := by
  rw [add_afk_pause]
  split
  · exact le_max_left 0 m
  · dsimp only
    split <;> split
    any_goals exact le_max_left 0 m
    all_goals exact le_trans (min_le_right _ _) (le_max_right 0 m)

/-- C1 (amended): each pause-producing stage clamps its own addition to the
budget value handed to it — the fatigue stage's total, the intra-pause
stage's recorded sum, and the AFK pause never exceed `max 0 budget`, and the
inter-file pause never exceeds the freshly computed
`calculate_afk_budget` value.  But the controller updates its running
`injected_ms` only once per file, after merging, not between stages (see
`processFile`), so the cross-stage `injected ≤ (2/3) × real` invariant of the
claim fails — `C1_counterexample` exhibits a violating assembly. -/
theorem C1_stage_clamping (evs : List Event) (g : Rng) (ts : Bool)
    (m b m' s np : Int) (p : GenParams) (st : MergeState) (i : Nat) :
    (add_time_of_day_fatigue evs g ts m).2.1 ≤ max 0 m ∧
    (((insert_intra_pauses evs g ts s np b).2.1).map PauseInfo.pause_ms).sum ≤ max 0 b ∧
    (add_afk_pause evs g m').2.1 ≤ max 0 m' ∧
    (drawInterPause p st g i).1 ≤
      calculate_afk_budget st.total_duration_ms st.total_pause_ms := by
  refine ⟨add_time_of_day_fatigue_le evs g ts m,
          insert_intra_pauses_le evs g ts s np b,
          add_afk_pause_le evs g m',
          ?_⟩
  unfold drawInterPause
  split
  · exact min_le_right _ _
  · exact le_max_left 0 _

theorem add_reaction_variance_go_spec (l : List Event) :
    ∀ (g : Rng) (prev : Int) (i j : Nat),
      (add_reaction_variance_go g prev i l).1.length = l.length ∧
      (((l.getD j default).PROTECTED = true ∨
         reactionExemptTypes.any (fun t => strContains t (l.getD j default).typ) = true) →
        (add_reaction_variance_go g prev i l).1.getD j default = l.getD j default) ∧
      (((add_reaction_variance_go g prev i l).1.getD j default).time =
          (l.getD j default).time ∨
        ((l.getD j default).PROTECTED = false ∧
         (l.getD j default).time + 200 ≤
           ((add_reaction_variance_go g prev i l).1.getD j default).time ∧
         ((add_reaction_variance_go g prev i l).1.getD j default).time ≤
           (l.getD j default).time + 600)) := by
  induction l with
  | nil =>
    intro g prev i j
    simp [add_reaction_variance_go]
  | cons e rest ih =>
    intro g prev i j
    simp only [add_reaction_variance_go]
    by_cases hp : is_protected_event e
    · simp only [hp, if_true]
      cases j with
      | zero =>
        refine ⟨?_, fun _ => by simp, Or.inl (by simp)⟩
        simpa using (ih g e.time (i + 1) 0).1
      | succ j' =>
        simp only [List.getD_cons_succ]
        exact ⟨by simpa using (ih g e.time (i + 1) j').1,
               (ih g e.time (i + 1) j').2.1, (ih g e.time (i + 1) j').2.2⟩
    · simp only [hp, if_false, Bool.false_eq_true]
      by_cases he : reactionExemptTypes.any (fun t => strContains t e.typ) = true
      · simp only [he, if_true]
        cases j with
        | zero =>
          refine ⟨?_, fun _ => by simp, Or.inl (by simp)⟩
          simpa using (ih g e.time (i + 1) 0).1
        | succ j' =>
          simp only [List.getD_cons_succ]
          exact ⟨by simpa using (ih g e.time (i + 1) j').1,
                 (ih g e.time (i + 1) j').2.1, (ih g e.time (i + 1) j').2.2⟩
      · simp only [he, if_false]
        have hpe : e.PROTECTED = false := by
          simpa [is_protected_event] using hp
        by_cases hi : i > 0
        · simp only [hi, if_true]
          by_cases hc : (rand01 g).1.blt ⟨3, 10⟩ ∧ e.time - prev ≥ 500
          · simp only [hc, if_true]
            cases j with
            | zero =>
              have hb := randint_bounds (by decide : (200 : Int) ≤ 600) (rand01 g).2
              refine ⟨?_, ?_, ?_⟩
              · simpa using (ih _ _ _ 0).1
              · intro habs
                simp only [List.getD_cons_zero] at habs
                rcases habs with h1 | h2
                · rw [hpe] at h1; cases h1
                · exact absurd h2 he
              · right
                refine ⟨by simpa using hpe, ?_, ?_⟩ <;>
                · simp
                  omega
            | succ j' =>
              simp only [List.getD_cons_succ]
              exact ⟨by simpa using (ih _ _ _ j').1,
                     (ih _ _ _ j').2.1, (ih _ _ _ j').2.2⟩
          · simp only [hc, if_false]
            cases j with
            | zero =>
              refine ⟨?_, fun _ => by simp, Or.inl (by simp)⟩
              simpa using (ih _ _ _ 0).1
            | succ j' =>
              simp only [List.getD_cons_succ]
              exact ⟨by simpa using (ih _ _ _ j').1,
                     (ih _ _ _ j').2.1, (ih _ _ _ j').2.2⟩
        · simp only [hi, if_false]
          cases j with
          | zero =>
            refine ⟨?_, fun _ => by simp, Or.inl (by simp)⟩
            simpa using (ih _ _ _ 0).1
          | succ j' =>
            simp only [List.getD_cons_succ]
            exact ⟨by simpa using (ih _ _ _ j').1,
                   (ih _ _ _ j').2.1, (ih _ _ _ j').2.2⟩

/-- C7 (amended): with a fixed 0.3 per-event probability (and a ≥500ms gap
guard), `add_reaction_variance` delays an eligible event by a bounded random
200-600ms; the delay applies to that event alone (every event either keeps its
time or receives its own 200-600ms delay — see `C7_counterexample` for the
non-propagation), and protected events are exempt. -/
theorem C7_reaction_variance_local_bounded_delay
    (events : List Event) (g : Rng) (j : Nat) :
    (add_reaction_variance events g).1.length = events.length ∧
    (is_protected_event (events.getD j default) = true →
      (add_reaction_variance events g).1.getD j default = events.getD j default) ∧
    (((add_reaction_variance events g).1.getD j default).time =
        (events.getD j default).time ∨
      (is_protected_event (events.getD j default) = false ∧
       (events.getD j default).time + 200 ≤
         ((add_reaction_variance events g).1.getD j default).time ∧
       ((add_reaction_variance events g).1.getD j default).time ≤
         (events.getD j default).time + 600)) := by
  have h := add_reaction_variance_go_spec events g 0 0 j
  exact ⟨h.1, fun hp => h.2.1 (Or.inl hp), h.2.2⟩

/-- Witness for C7: a protected event passes through unchanged. -/
theorem C7_witness :
    (add_reaction_variance c7Prot [0, 0, 0]).1.getD 1 default =
      c7Prot.getD 1 default :=
  (C7_reaction_variance_local_bounded_delay c7Prot [0, 0, 0] 1).2.1 (by decide)

theorem add_mouse_jitter_times (l : List Event) :
    ∀ g : Rng, (add_mouse_jitter l g).1.map Event.time = l.map Event.time := by
  induction l with
  | nil => intro g; simp [add_mouse_jitter]
  | cons e rest ih =>
    intro g
    simp only [add_mouse_jitter]
    by_cases hp : is_protected_event e
    · simp [hp, ih]
    · simp only [hp, if_false, Bool.false_eq_true]
      split <;> simp [ih]

theorem add_mouse_jitter_protected (l : List Event) :
    ∀ (g : Rng) (j : Nat), is_protected_event (l.getD j default) = true →
      (add_mouse_jitter l g).1.getD j default = l.getD j default := by
  induction l with
  | nil =>
    intro g j h
    simp [add_mouse_jitter]
  | cons e rest ih =>
    intro g j h
    simp only [add_mouse_jitter]
    by_cases hp : is_protected_event e
    · simp only [hp, if_true]
      cases j with
      | zero => simp
      | succ j' =>
        simp only [List.getD_cons_succ] at h ⊢
        exact ih g j' h
    · simp only [hp, if_false, Bool.false_eq_true]
      split
      · cases j with
        | zero =>
          simp only [List.getD_cons_zero] at h
          exact absurd h (by simpa using hp)
        | succ j' =>
          simp only [List.getD_cons_succ] at h ⊢
          exact ih _ j' h
      · cases j with
        | zero =>
          simp only [List.getD_cons_zero] at h
          exact absurd h (by simpa using hp)
        | succ j' =>
          simp only [List.getD_cons_succ] at h ⊢
          exact ih g j' h

/-- C3 (amended): a protected event is fully exempt from the jitter and
reaction-variance stages (and jitter never alters any time at all), so those
humanization stages keep protected offsets intact; the pause-injection stages
however shift every event after their insertion point, protected or not, so
the claimed trace-wide invariance fails there (see `C3_counterexample`), the
stages only keeping a 1000ms guard zone before protected events. -/
theorem C3_protected_exempt_from_jitter_and_variance
    (events : List Event) (g h : Rng) (j : Nat) :
    (add_mouse_jitter events g).1.map Event.time = events.map Event.time ∧
    (is_protected_event (events.getD j default) = true →
      (add_mouse_jitter events g).1.getD j default = events.getD j default ∧
      (add_reaction_variance events h).1.getD j default = events.getD j default) := by
  refine ⟨add_mouse_jitter_times events g, fun hp => ⟨add_mouse_jitter_protected events g j hp, ?_⟩⟩
  exact ((add_reaction_variance_go_spec events h 0 0 j).2.1) (Or.inl hp)

/-- Witness for C3: on a concrete trace with a protected click, jitter keeps
all times and both stages keep the protected event untouched. -/
theorem C3_witness :
    (add_mouse_jitter c7Prot [0, 0]).1.map Event.time = c7Prot.map Event.time ∧
    (add_mouse_jitter c7Prot [0, 0]).1.getD 1 default = c7Prot.getD 1 default ∧
    (add_reaction_variance c7Prot [0, 0]).1.getD 1 default = c7Prot.getD 1 default := by
  have h := C3_protected_exempt_from_jitter_and_variance c7Prot [0, 0] [0, 0] 1
  exact ⟨h.1, (h.2 (by decide)).1, (h.2 (by decide)).2⟩

theorem mem_insertByTime {e a : Event} :
    ∀ {l : List Event}, a ∈ insertByTime e l → a = e ∨ a ∈ l := by
  intro l
  induction l with
  | nil => simp [insertByTime]
  | cons b t ih =>
    simp only [insertByTime]
    split
    · intro h
      rcases List.mem_cons.mp h with h | h
      · exact Or.inr (by simp [h])
      · rcases ih h with h' | h'
        · exact Or.inl h'
        · exact Or.inr (List.mem_cons_of_mem _ h')
    · intro h
      rcases List.mem_cons.mp h with h | h
      · exact Or.inl h
      · exact Or.inr h

theorem insertByTime_sortedP (e : Event) :
    ∀ {l : List Event}, TimesSortedP l → TimesSortedP (insertByTime e l) := by
  intro l
  induction l with
  | nil => intro _; simp [insertByTime, TimesSortedP]
  | cons b t ih =>
    intro h
    rw [TimesSortedP, List.pairwise_cons] at h
    simp only [insertByTime]
    split
    · rename_i hbe
      rw [TimesSortedP, List.pairwise_cons]
      refine ⟨?_, ih h.2⟩
      intro a ha
      rcases mem_insertByTime ha with rfl | ha'
      · exact hbe
      · exact h.1 a ha'
    · rename_i hbe
      push_neg at hbe
      rw [TimesSortedP, List.pairwise_cons]
      refine ⟨?_, List.Pairwise.cons h.1 h.2⟩
      intro a ha
      rcases List.mem_cons.mp ha with rfl | ha'
      · exact le_of_lt hbe
      · exact le_trans (le_of_lt hbe) (h.1 a ha')

theorem sortByTime_sortedP (l : List Event) : TimesSortedP (sortByTime l) := by
  rw [sortByTime]
  suffices hgen : ∀ (l acc : List Event), TimesSortedP acc →
      TimesSortedP (l.foldl (fun acc e => insertByTime e acc) acc) from
    hgen l [] (by simp [TimesSortedP])
  intro l
  induction l with
  | nil => intro acc h; simpa using h
  | cons e t ih =>
    intro acc h
    exact ih (insertByTime e acc) (insertByTime_sortedP e h)

theorem sortedP_map_shift (f : Event → Event) (hf : ∀ e, (f e).time = e.time ∨
    ∃ c : Int, ∀ e' : Event, (f e').time = e'.time + c) :
    True := trivial

theorem sortedP_map_time_affine {l : List Event} (c : Int)
    (h : TimesSortedP l) (f : Event → Event) (hf : ∀ e, (f e).time = e.time + c) :
    TimesSortedP (l.map f) := by
  refine List.Pairwise.map f ?_ h
  intro a b hab
  rw [hf a, hf b]
  omega

theorem sortedP_dropWhile (p : Event → Bool) {l : List Event}
    (h : TimesSortedP l) : TimesSortedP (l.dropWhile p) :=
  List.Pairwise.sublist (List.dropWhile_sublist _) h

theorem process_macro_file_sortedP (evs : List Event) :
    TimesSortedP (process_macro_file evs).1 := by
  rw [process_macro_file]
  split
  · simp [TimesSortedP]
  · refine sortedP_dropWhile _ ?_
    exact sortedP_map_time_affine (-(sortByTime evs).headI.time)
      (sortByTime_sortedP evs) _ (fun e => by simp [sub_eq_add_neg])

theorem shiftSuffix_zero (d : Int) :
    ∀ l : List Event, shiftSuffix 0 d l = l.map (fun e => { e with time := e.time + d }) := by
  intro l
  induction l with
  | nil => rfl
  | cons e t ih => simp [shiftSuffix, ih]

theorem mem_shiftSuffix {b : Event} {d : Int} :
    ∀ {k : Nat} {l : List Event}, b ∈ shiftSuffix k d l →
      ∃ b₀ ∈ l, b.time = b₀.time ∨ b.time = b₀.time + d := by
  intro k l
  induction l generalizing k with
  | nil => simp [shiftSuffix]
  | cons e t ih =>
    cases k with
    | zero =>
      simp only [shiftSuffix]
      intro h
      rcases List.mem_cons.mp h with rfl | h'
      · exact ⟨e, List.mem_cons_self e t, Or.inr rfl⟩
      · obtain ⟨b₀, hb₀, hbt⟩ := ih h'
        exact ⟨b₀, List.mem_cons_of_mem _ hb₀, hbt⟩
    | succ k' =>
      simp only [shiftSuffix]
      intro h
      rcases List.mem_cons.mp h with rfl | h'
      · exact ⟨b, List.mem_cons_self b t, Or.inl rfl⟩
      · obtain ⟨b₀, hb₀, hbt⟩ := ih h'
        exact ⟨b₀, List.mem_cons_of_mem _ hb₀, hbt⟩

theorem shiftSuffix_sortedP {d : Int} (hd : 0 ≤ d) :
    ∀ (k : Nat) {l : List Event}, TimesSortedP l → TimesSortedP (shiftSuffix k d l) := by
  intro k l
  induction l generalizing k with
  | nil => intro _; simp [shiftSuffix, TimesSortedP]
  | cons e t ih =>
    intro h
    rw [TimesSortedP, List.pairwise_cons] at h
    cases k with
    | zero =>
      rw [shiftSuffix_zero]
      exact sortedP_map_time_affine d (List.Pairwise.cons h.1 h.2) _ (fun e => by simp)
    | succ k' =>
      simp only [shiftSuffix]
      rw [TimesSortedP, List.pairwise_cons]
      refine ⟨?_, ih k' h.2⟩
      intro b hb
      obtain ⟨b₀, hb₀, hbt⟩ := mem_shiftSuffix hb
      have := h.1 b₀ hb₀
      rcases hbt with h' | h' <;> omega

theorem applyIntraPauses_sortedP (locs : List Nat) :
    ∀ (evs : List Event) (g : Rng) (s b : Int), TimesSortedP evs →
      TimesSortedP (applyIntraPauses evs g s b locs).1 := by
  induction locs with
  | nil => intro evs g s b h; simpa [applyIntraPauses] using h
  | cons gi rest ih =>
    intro evs g s b h
    rcases hr : randint 0 (s * 1000) g with ⟨rp, g₁⟩
    simp only [applyIntraPauses, hr]
    split
    · rename_i hpos
      rcases h2 : applyIntraPauses (shiftSuffix (gi + 1) (min rp b) evs) g₁ s
          (max 0 (b - min rp b)) rest with ⟨evs₂, info, g₂⟩
      have := ih (shiftSuffix (gi + 1) (min rp b) evs) g₁ s (max 0 (b - min rp b))
        (shiftSuffix_sortedP (le_of_lt hpos) (gi + 1) h)
      rw [h2] at this
      simpa [h2] using this
    · exact ih evs g₁ s b h

theorem insert_intra_pauses_sortedP (events : List Event) (g : Rng) (ts : Bool)
    (s np b : Int) (h : TimesSortedP events) :
    TimesSortedP (insert_intra_pauses events g ts s np b).1 := by
  rw [insert_intra_pauses]
  split
  · exact h
  · dsimp only
    repeat' split
    any_goals exact h
    exact applyIntraPauses_sortedP _ _ _ _ _ h

theorem add_afk_pause_sortedP (events : List Event) (g : Rng) (m : Int)
    (h : TimesSortedP events) : TimesSortedP (add_afk_pause events g m).1 := by
  rw [add_afk_pause]
  split
  · exact h
  · dsimp only
    split <;> split
    any_goals exact h
    all_goals
      rename_i hnle
      exact shiftSuffix_sortedP (by omega) _ h

theorem headI_time_le_of_sortedP {l : List Event} (h : TimesSortedP l)
    {b : Event} (hb : b ∈ l) : l.headI.time ≤ b.time := by
  cases l with
  | nil => cases hb
  | cons e t =>
    rw [TimesSortedP, List.pairwise_cons] at h
    rcases List.mem_cons.mp hb with rfl | hb'
    · simp [List.headI]
    · simpa [List.headI] using h.1 b hb'

theorem lastTimeD_cons_cons (a b : Event) (l : List Event) :
    lastTimeD (a :: b :: l) = lastTimeD (b :: l) := by
  simp [lastTimeD]

theorem le_lastTimeD_of_sortedP :
    ∀ {l : List Event}, TimesSortedP l → ∀ {a : Event}, a ∈ l → a.time ≤ lastTimeD l := by
  intro l
  induction l with
  | nil => intro _ a ha; cases ha
  | cons e t ih =>
    intro h a ha
    rw [TimesSortedP, List.pairwise_cons] at h
    cases t with
    | nil =>
      rcases List.mem_cons.mp ha with rfl | ha'
      · simp [lastTimeD]
      · cases ha'
    | cons b t' =>
      rw [lastTimeD_cons_cons]
      rcases List.mem_cons.mp ha with rfl | ha'
      · exact le_trans (h.1 b (List.mem_cons_self b t'))
          (ih h.2 (List.mem_cons_self b t'))
      · exact ih h.2 ha'

theorem merge_sortedP {base new : List Event} {pause : Int}
    (hb : TimesSortedP base) (hn : TimesSortedP new) (hp : 0 ≤ pause) :
    TimesSortedP (merge_events_with_pauses base new pause) := by
  rw [merge_events_with_pauses]
  split
  · exact hb
  · dsimp only
    rw [TimesSortedP, List.pairwise_append]
    refine ⟨hb, sortedP_map_time_affine
      (lastTimeD base + pause - new.headI.time) hn _ (fun e => by simp), ?_⟩
    intro a ha b' hb'
    simp only [List.mem_map] at hb'
    obtain ⟨b₀, hb₀, rfl⟩ := hb'
    have h1 : a.time ≤ lastTimeD base := le_lastTimeD_of_sortedP hb ha
    have h2 : new.headI.time ≤ b₀.time := headI_time_le_of_sortedP hn hb₀
    dsimp only
    omega

theorem drawInterPause_nonneg (p : GenParams) (st : MergeState) (g : Rng) (i : Nat) :
    0 ≤ (drawInterPause p st g i).1 := by
  rw [drawInterPause]
  split
  · dsimp only
    refine le_min ?_ (le_max_left 0 _)
    split
    · exact randint_nonneg _ (by norm_num) _
    · split
      · exact randint_nonneg _ (by norm_num) _
      · exact randint_nonneg _ (by norm_num) _
  · exact le_refl 0

theorem humanizeFile_sortedP (dp : List Event → Rng → List Event × Rng)
    (p : GenParams) (st : MergeState) (g : Rng) (sp : Bool) (events : List Event)
    (h : TimesSortedP events) :
    TimesSortedP (humanizeFile dp p st g sp events).1 := by
  rw [humanizeFile]
  split
  · dsimp only
    repeat' split
    all_goals
      first
        | exact insert_intra_pauses_sortedP _ _ _ _ _ _ (process_macro_file_sortedP _)
        | exact process_macro_file_sortedP _
        | (apply add_afk_pause_sortedP
           first
             | exact insert_intra_pauses_sortedP _ _ _ _ _ _ (process_macro_file_sortedP _)
             | exact process_macro_file_sortedP _)
  · exact h

theorem processFile_sortedP (dp : List Event → Rng → List Event × Rng)
    (p : GenParams) (st : MergeState) (g : Rng) (i : Nat) (sp : Bool)
    (fe : List Event) (h : TimesSortedP st.all_events) :
    TimesSortedP (processFile dp p st g i sp fe).1.all_events := by
  rw [processFile]
  split
  · exact h
  · dsimp only
    exact merge_sortedP h
      (humanizeFile_sortedP dp p st g sp _ (process_macro_file_sortedP _))
      (drawInterPause_nonneg _ _ _ _)

theorem mergeFiles_sortedP (dp : List Event → Rng → List Event × Rng)
    (p : GenParams) (files : List (Bool × List Event)) :
    ∀ (st : MergeState) (g : Rng) (i : Nat), TimesSortedP st.all_events →
      TimesSortedP (mergeFiles dp p files st g i).1.all_events := by
  induction files with
  | nil => intro st g i h; exact h
  | cons f rest ih =>
    intro st g i h
    rcases f with ⟨sp, fe⟩
    exact ih _ _ _ (processFile_sortedP dp p st g i sp fe h)

theorem insertByTime_append_of_le {e : Event} :
    ∀ {l : List Event}, (∀ a ∈ l, a.time ≤ e.time) → insertByTime e l = l ++ [e] := by
  intro l
  induction l with
  | nil => intro _; rfl
  | cons b t ih =>
    intro h
    simp only [insertByTime, if_pos (h b (List.mem_cons_self b t))]
    rw [ih (fun a ha => h a (List.mem_cons_of_mem _ ha))]
    rfl

theorem sortByTime_of_sortedP {l : List Event} (h : TimesSortedP l) :
    sortByTime l = l := by
  rw [sortByTime]
  suffices hgen : ∀ (l acc : List Event), TimesSortedP (acc ++ l) →
      l.foldl (fun acc e => insertByTime e acc) acc = acc ++ l by
    simpa using hgen l [] (by simpa using h)
  intro l
  induction l with
  | nil => intro acc _; simp
  | cons e t ih =>
    intro acc hsort
    have hle : ∀ a ∈ acc, a.time ≤ e.time := by
      intro a ha
      have := (List.pairwise_append.mp hsort).2.2 a ha e (List.mem_cons_self e t)
      exact this
    have : (acc ++ [e]) ++ t = acc ++ e :: t := by simp
    calc (e :: t).foldl (fun acc e => insertByTime e acc) acc
        = t.foldl (fun acc e => insertByTime e acc) (insertByTime e acc) := rfl
      _ = t.foldl (fun acc e => insertByTime e acc) (acc ++ [e]) := by
          rw [insertByTime_append_of_le hle]
      _ = (acc ++ [e]) ++ t := ih (acc ++ [e]) (by rw [this]; exact hsort)
      _ = acc ++ e :: t := by simp

theorem dropWhile_head_false {p : Event → Bool} :
    ∀ {l : List Event} {a : Event} {t : List Event},
      l.dropWhile p = a :: t → p a = false := by
  intro l
  induction l with
  | nil => intro a t h; cases h
  | cons x xs ih =>
    intro a t h
    rw [List.dropWhile_cons] at h
    split at h
    · exact ih h
    · rename_i hx
      cases h
      simpa using hx

theorem map_time_sub_zero (l : List Event) :
    l.map (fun e => { e with time := e.time - 0 }) = l := by
  have hfun : ∀ e : Event, ({ e with time := e.time - 0 } : Event) = e := by
    intro e; cases e; simp
  induction l with
  | nil => rfl
  | cons e t ih => rw [List.map_cons, hfun, ih]

/-- C6 (amended): `process_macro_file` always returns the last cleaned event's
time as duration (0 when empty), and it is idempotent on its own outputs
whenever the output's first event time is 0 — which holds exactly when no
leading key events were dropped after the min-shift; when they are dropped the
first time can exceed 0 and renormalizing shifts the trace again
(see `C6_counterexample`). -/
theorem C6_normalization (evs : List Event)
    (h : (process_macro_file evs).1.headI.time = 0 ∨ (process_macro_file evs).1 = []) :
    (process_macro_file evs).2 = lastTimeD (process_macro_file evs).1 ∧
    process_macro_file ((process_macro_file evs).1) = process_macro_file evs := by
  have hsnd : ∀ l : List Event, (process_macro_file l).2 = lastTimeD (process_macro_file l).1 := by
    intro l
    rw [process_macro_file]
    split
    · simp [lastTimeD]
    · rfl
  refine ⟨hsnd evs, ?_⟩
  rcases hout : (process_macro_file evs).1 with _ | ⟨a, t⟩
  · have h2 : (process_macro_file evs).2 = 0 := by
      rw [hsnd evs, hout]; rfl
    calc process_macro_file ([] : List Event)
        = ([], 0) := by rw [process_macro_file]; simp
      _ = ((process_macro_file evs).1, (process_macro_file evs).2) := by rw [hout, h2]
      _ = process_macro_file evs := rfl
  · have ha0 : a.time = 0 := by
      rcases h with h0 | hnil
      · rw [hout] at h0; simpa [List.headI] using h0
      · rw [hout] at hnil; cases hnil
    have hsort : TimesSortedP (a :: t) := by
      rw [← hout]; exact process_macro_file_sortedP evs
    have hkey : (fun e : Event => decide (e.typ = "KeyUp" ∨ e.typ = "KeyDown")) a = false := by
      by_cases hevs : evs = []
      · rw [process_macro_file, if_pos hevs] at hout; cases hout
      · rw [process_macro_file, if_neg hevs] at hout
        exact dropWhile_head_false hout
    have h2 : (process_macro_file evs).2 = lastTimeD (a :: t) := by
      rw [hsnd evs, hout]
    calc process_macro_file (a :: t)
        = (a :: t, lastTimeD (a :: t)) := by
          rw [process_macro_file, if_neg (by simp)]
          dsimp only
          rw [sortByTime_of_sortedP hsort]
          have hhead : (a :: t : List Event).headI = a := rfl
          rw [hhead, ha0, map_time_sub_zero, List.dropWhile_cons]
          simp [hkey]
      _ = ((process_macro_file evs).1, (process_macro_file evs).2) := by rw [hout, h2]
      _ = process_macro_file evs := rfl

/-- Witness for C6 at an already-normalized one-event trace. -/
theorem C6_witness :
    (process_macro_file c6Normalized).2 = lastTimeD (process_macro_file c6Normalized).1 ∧
    process_macro_file ((process_macro_file c6Normalized).1) =
      process_macro_file c6Normalized :=
  C6_normalization c6Normalized (Or.inl (by decide))

theorem timesSorted_iff_sortedP (l : List Event) : TimesSorted l ↔ TimesSortedP l :=
  List.chain'_iff_pairwise

/-- C2: every produced Version — the merged event list of
`generate_version_for_folder` — has non-decreasing consecutive event times:
each merged chunk ends with a renormalization (which sorts) followed only by
non-negative suffix shifts, and merging appends at
`last time + inter-file pause` with the pause clamped non-negative. -/
theorem C2_version_monotonic
    (load : String → List Event) (durations : String → Frac) (fuel : Nat)
    (target_minutes : Frac) (exclude_count : Nat) (p : GenParams)
    (special_file : Option String) (max_files : Option Nat)
    (desktopPaths : List Event → Rng → List Event × Rng)
    (st : GlobalFileSelector) (v : List Event × MergeState)
    (h : (generate_version_for_folder load durations fuel target_minutes
      exclude_count p special_file max_files desktopPaths st).1 = some v) :
    TimesSorted v.1 := by
  rw [timesSorted_iff_sortedP]
  rw [generate_version_for_folder] at h
  dsimp only at h
  split at h
  · exact Option.noConfusion h
  · split at h
    · exact Option.noConfusion h
    · have hv := Option.some.inj h
      rw [← hv, assembleVersion]
      exact mergeFiles_sortedP _ _ _ _ _ _ (by simp [TimesSortedP])

/-- Witness for C2: a concretely produced version is monotone. -/
theorem C2_witness :
    TimesSorted [(⟨0, "MouseMove", none, none, false⟩ : Event),
                 ⟨50, "MouseMove", none, none, false⟩] :=
  C2_version_monotonic c2Load c2Durations 3 ⟨1, 100⟩ 10 plainParams
    (some "a") none (fun evs g => (evs, g)) (GlobalFileSelector.init [] ["a"])
    ([⟨0, "MouseMove", none, none, false⟩, ⟨50, "MouseMove", none, none, false⟩],
     ⟨[⟨0, "MouseMove", none, none, false⟩, ⟨50, "MouseMove", none, none, false⟩], 50, 0⟩)
    (by decide)

theorem cons_eraseIdx_perm {l : List α} :
    ∀ {i : Nat} {a : α}, l.get? i = some a → (a :: l.eraseIdx i).Perm l := by
  induction l with
  | nil => intro i a h; cases h
  | cons x xs ih =>
    intro i a h
    cases i with
    | zero =>
      cases h
      exact List.Perm.refl _
    | succ i' =>
      have h1 := ih (i := i') h
      have h2 : (a :: x :: xs.eraseIdx i').Perm (x :: a :: xs.eraseIdx i') :=
        List.Perm.swap x a _
      have h3 : (x :: a :: xs.eraseIdx i').Perm (x :: xs) := List.Perm.cons x h1
      exact h2.trans h3

theorem shuffleGo_perm : ∀ (n : Nat) (l : List α) (g : Rng),
    ((shuffleGo n l g).1).Perm l := by
  intro n
  induction n with
  | zero => intro l g; exact List.Perm.refl l
  | succ n ih =>
    intro l g
    cases l with
    | nil => exact List.Perm.refl _
    | cons x xs =>
      rw [shuffleGo]
      rcases hget : (x :: xs).get? ((rngNext g).1 % (x :: xs).length) with _ | a
      · simp only [hget]
        exact List.Perm.refl _
      · simp only [hget]
        rcases hrec : shuffleGo n ((x :: xs).eraseIdx ((rngNext g).1 % (x :: xs).length))
            (rngNext g).2 with ⟨rest, g₂⟩
        have hperm := ih ((x :: xs).eraseIdx ((rngNext g).1 % (x :: xs).length)) (rngNext g).2
        rw [hrec] at hperm
        exact List.Perm.trans (List.Perm.cons a hperm) (cons_eraseIdx_perm hget)

theorem shuffle_perm (l : List α) (g : Rng) : ((shuffle l g).1).Perm l :=
  shuffleGo_perm l.length l g

theorem choiceD_mem [Inhabited α] {l : List α} (h : l ≠ []) (g : Rng) :
    (choiceD l g).1 ∈ l := by
  rw [choiceD]
  have hlen : 0 < l.length := List.length_pos.mpr h
  have hlt : g.headI % l.length < l.length := Nat.mod_lt _ hlen
  rw [List.getD_eq_getElem?_getD, List.getElem?_eq_getElem hlt]
  exact List.getElem_mem _

theorem minByDur_mem (durations : String → Frac) :
    ∀ {l : List String} {f : String}, minByDur durations l = some f → f ∈ l := by
  intro l
  induction l with
  | nil => intro f h; cases h
  | cons a rest ih =>
    intro f h
    rw [minByDur] at h
    rcases hm : minByDur durations rest with _ | b
    · rw [hm] at h
      cases h
      exact List.mem_cons_self _ _
    · rw [hm] at h
      dsimp only at h
      by_cases hcmp : (durations b).blt (durations a) = true
      · rw [if_pos hcmp] at h
        cases h
        exact List.mem_cons_of_mem _ (ih hm)
      · rw [if_neg hcmp] at h
        cases h
        exact List.mem_cons_self _ _

theorem bestFitPick_mem {durations : String → Frac} {gap : Frac}
    {candidates : List String} {g : Rng} {f : String}
    (h : (bestFitPick durations gap candidates g).1 = some f) : f ∈ candidates := by
  rw [bestFitPick] at h
  split at h
  · dsimp only at h
    split at h
    · rename_i hfit
      cases Option.some.inj h
      exact List.mem_of_mem_filter (choiceD_mem hfit _)
    · rcases hm : minByDur durations candidates with _ | b
      · rw [hm] at h
        cases h
      · rw [hm] at h
        cases Option.some.inj h
        exact minByDur_mem durations hm
  · cases h

theorem pickCandidate_mem {durations : String → Frac} {gap : Frac}
    {candidates : List String} {g : Rng} {f : String}
    (h : (pickCandidate durations gap candidates g).1 = some f) : f ∈ candidates := by
  rw [pickCandidate] at h
  dsimp only at h
  rcases hbf : (bestFitPick durations gap candidates g).1 with _ | b
  · simp only [hbf, Option.isNone_none, if_true] at h
    split at h
    · rename_i hne
      cases Option.some.inj h
      exact choiceD_mem hne _
    · rw [hbf] at h
      cases h
  · simp only [hbf, Option.isNone_some] at h
    rw [if_neg (by simp)] at h
    rw [hbf] at h
    cases Option.some.inj h
    exact bestFitPick_mem hbf

theorem cycleDraws_nil (c : Nat) : cycleDraws [] c = [] := rfl

theorem cycleDraws_append (log : List (Nat × String)) (c c' : Nat) (f : String) :
    cycleDraws (log ++ [(c, f)]) c' =
      cycleDraws log c' ++ (if c = c' then [f] else []) := by
  rw [cycleDraws, cycleDraws, List.filter_append, List.map_append]
  congr 1
  split
  · rename_i hc
    simp [hc]
  · rename_i hc
    simp [hc]

theorem cycleDraws_nil_of_gt {log : List (Nat × String)} {c : Nat}
    (h : ∀ pr ∈ log, pr.1 ≤ c) : cycleDraws log (c + 1) = [] := by
  rw [cycleDraws]
  have : log.filter (fun pr => decide (pr.1 = c + 1)) = [] := by
    rw [List.filter_eq_nil]
    intro pr hpr
    have := h pr hpr
    simp only [decide_eq_true_eq]
    omega
  rw [this]
  rfl

theorem SelInv_rng {st : GlobalFileSelector} (h : SelInv st) (g : Rng) :
    SelInv { st with rng := g } := h

theorem refillPool_inv {st : GlobalFileSelector} (h : SelInv st) :
    SelInv (refillPool st) := by
  obtain ⟨h1, h2, h3, h4, h5⟩ := h
  rw [refillPool]
  refine ⟨h1, ?_, ?_, ?_, h5⟩
  · exact (shuffle_perm st.all_files st.rng).nodup_iff.mpr h1
  · intro f hf
    rw [cycleDraws_nil_of_gt h4] at hf
    cases hf
  · intro pr hpr
    exact le_trans (h4 pr hpr) (Nat.le_succ _)

theorem refillPool_cycleDraws {st : GlobalFileSelector} (h : SelInv st) :
    cycleDraws (refillPool st).log (refillPool st).cycle = [] := by
  rw [refillPool]
  exact cycleDraws_nil_of_gt h.2.2.2.1

theorem selectCandidates_spec (used : List String) (st : GlobalFileSelector)
    (h : SelInv st) :
    SelInv (selectCandidates used st).2 ∧
    (∀ f ∈ (selectCandidates used st).1,
      f ∈ (selectCandidates used st).2.current_pool ∨
      cycleDraws (selectCandidates used st).2.log (selectCandidates used st).2.cycle = []) := by
  rw [selectCandidates]
  split
  · dsimp only
    refine ⟨refillPool_inv h, ?_⟩
    intro f hf
    split at hf
    · exact Or.inr (refillPool_cycleDraws h)
    · exact Or.inl (List.mem_of_mem_filter hf)
  · exact ⟨h, fun f hf => Or.inl (List.mem_of_mem_filter hf)⟩

theorem drawBookkeep_inv {st : GlobalFileSelector} {f : String} (h : SelInv st)
    (hf : f ∈ st.current_pool ∨ cycleDraws st.log st.cycle = []) (g' : Rng) :
    SelInv (drawBookkeep f g' st) := by
  obtain ⟨h1, h2, h3, h4, h5⟩ := h
  have hfnotdrawn : f ∉ cycleDraws st.log st.cycle := by
    rcases hf with hf | hf
    · intro hmem
      exact h3 f hmem hf
    · rw [hf]
      exact List.not_mem_nil f
  rw [drawBookkeep]
  refine ⟨h1, h2.erase f, ?_, ?_, ?_⟩
  · intro x hx
    rw [cycleDraws_append] at hx
    rw [if_pos rfl] at hx
    rcases List.mem_append.mp hx with hx' | hx'
    · intro hmem
      exact h3 x hx' (List.mem_of_mem_erase hmem)
    · rcases List.mem_singleton.mp hx' with rfl
      exact h2.not_mem_erase
  · intro pr hpr
    rcases List.mem_append.mp hpr with h' | h'
    · exact h4 pr h'
    · rcases List.mem_singleton.mp h' with rfl
      exact le_refl _
  · intro c
    rw [cycleDraws_append]
    split
    · rename_i hc
      refine List.Nodup.append (h5 c) (List.nodup_singleton f) ?_
      intro a ha hb
      rcases List.mem_singleton.mp hb with rfl
      rw [← hc] at ha
      exact hfnotdrawn ha
    · simpa using h5 c

theorem getFilesLoop_inv (durations : String → Frac) (target : Frac) :
    ∀ (fuel : Nat) (st : GlobalFileSelector) (sel used : List String) (est : Frac),
      SelInv st → SelInv (getFilesLoop durations target fuel st sel used est).2 := by
  intro fuel
  induction fuel with
  | zero => intro st sel used est h; exact h
  | succ n ih =>
    intro st sel used est h
    rw [getFilesLoop]
    split
    · dsimp only
      have hspec := selectCandidates_spec used st h
      split
      · exact hspec.1
      · rename_i hne
        rcases hpk : (pickCandidate durations (target.sub est)
            (selectCandidates used st).1 (selectCandidates used st).2.rng).1 with _ | f
        · simp only [hpk]
          exact SelInv_rng hspec.1 _
        · simp only [hpk]
          exact ih _ _ _ _
            (drawBookkeep_inv hspec.1 (hspec.2 f (pickCandidate_mem hpk)) _)
    · exact h

theorem get_files_for_time_inv (durations : String → Frac) (target : Frac)
    (fuel : Nat) (st : GlobalFileSelector) (h : SelInv st) :
    SelInv (get_files_for_time durations target fuel st).2 :=
  getFilesLoop_inv durations target fuel st [] [] _ h

theorem init_inv {g : Rng} {all : List String} (h : all.Nodup) :
    SelInv (GlobalFileSelector.init g all) := by
  rw [GlobalFileSelector.init]
  exact ⟨h, (shuffle_perm all g).nodup_iff.mpr h,
    fun f hf => absurd hf (List.not_mem_nil f), fun pr hpr => absurd hpr (List.not_mem_nil pr),
    fun c => List.nodup_nil⟩

theorem runCalls_inv (durations : String → Frac) (calls : List (Frac × Nat)) :
    ∀ st : GlobalFileSelector, SelInv st → SelInv (runCalls durations calls st) := by
  induction calls with
  | nil => intro st h; exact h
  | cons cll rest ih =>
    intro st h
    exact ih _ (get_files_for_time_inv durations cll.1 cll.2 st h)

/-- C4: over any sequence of selection calls against one selector (the
versions of a pool), and within every refill cycle of the rotation, the drawn
files are pairwise distinct — so no trace is drawn twice before every other
trace has been drawn at least once within one full rotation cycle. -/
theorem C4_round_robin_fairness (all : List String) (g : Rng)
    (durations : String → Frac) (calls : List (Frac × Nat)) (c : Nat)
    (h1 : all.Nodup) (h2 : 1 < all.length) :
    (cycleDraws (runCalls durations calls (GlobalFileSelector.init g all)).log c).Nodup :=
  (runCalls_inv durations calls _ (init_inv h1)).2.2.2.2 c

/-- Witness for C4 on a concrete two-file pool and one selection call. -/
theorem C4_witness :
    (cycleDraws (runCalls (fun _ => Frac.ofInt 2) [(Frac.ofInt 1, 3)]
      (GlobalFileSelector.init [] ["a", "b"])).log 0).Nodup :=
  C4_round_robin_fairness ["a", "b"] [] (fun _ => Frac.ofInt 2) [(Frac.ofInt 1, 3)] 0
    (by decide) (by decide)

/-- C9: a pool with zero usable traces makes the selector return the empty
selection (no error), and version assembly returns the empty `none` result
rather than failing. -/
theorem C9_empty_pool_empty_result (load : String → List Event)
    (durations : String → Frac) (target_minutes : Frac) (fuel : Nat) (g : Rng)
    (exclude_count : Nat) (p : GenParams) (special_file : Option String)
    (max_files : Option Nat) (desktopPaths : List Event → Rng → List Event × Rng) :
    (get_files_for_time durations target_minutes fuel
      (GlobalFileSelector.init g [])).1 = [] ∧
    (generate_version_for_folder load durations fuel target_minutes exclude_count p
      special_file max_files desktopPaths (GlobalFileSelector.init g [])).1 = none := by
  have hsel : (get_files_for_time durations target_minutes fuel
      (GlobalFileSelector.init g [])).1 = [] := by
    cases fuel with
    | zero => rfl
    | succ n =>
      rw [get_files_for_time, getFilesLoop]
      split
      · have hcs : (selectCandidates [] (GlobalFileSelector.init g [])).1 = [] := by
          rfl
        rw [if_pos hcs]
        rfl
      · rfl
  refine ⟨hsel, ?_⟩
  rw [generate_version_for_folder]
  dsimp only
  rw [if_pos hsel]

end MergeMacros
